import Mathlib

/-!
Verification of the QC-Analysis outlier detection pipeline.

The repository's `qc_analysis.py` orchestrates an outlier-detection engine:
LOOP-style outlier scoring, automatic threshold derivation, an inlier/outlier
split, per-outlier subspace explanation, and frequent-itemset mining over the
explanatory subspaces.  The orchestration (`detect_outliers`,
`analyze_outliers`, `compare_outlier_psms`) and the plotting helpers
(`visualize.py`) are embedded from the source; the `outlier` module and the
`fim` itemset miner are not part of the available sources and are modelled
from the specification where noted.
-/

namespace QC

/-- A row of the metric matrix: one rational value per metric column. -/
abbrev Row := List ℚ

/-- Manhattan distance, the pipeline's default distance metric
(`--distance manhattan` in `qc_analysis.py::parse_args`). -/
def manhattan (x y : Row) : ℚ :=
  (List.zipWith (fun a b => |a - b|) x y).sum

/-- Clamp a rational into the unit interval. -/
def clamp01 (x : ℚ) : ℚ := max 0 (min 1 x)

/-! ### Stable insertion sort by a rational key

Used to model both the ascending nearest-neighbor ordering (ties broken by
stable row order, spec section 3) and Python's stable `sorted` call in
`qc_analysis.py::analyze_outliers`. -/

/-- Insert `a` into `l`, placing it after every element whose key is `≤` its
key (stable insertion). -/
def insertByKey {α : Type} (key : α → ℚ) (a : α) : List α → List α
  | [] => [a]
  | b :: l => if key a ≤ key b then a :: b :: l else b :: insertByKey key a l

/-- Stable insertion sort by a rational key, ascending. -/
def sortByKey {α : Type} (key : α → ℚ) : List α → List α
  | [] => []
  | a :: l => insertByKey key a (sortByKey key l)

theorem mem_insertByKey {α : Type} (key : α → ℚ) (a x : α) (l : List α) :
    x ∈ insertByKey key a l ↔ x = a ∨ x ∈ l := by
  induction l with
  | nil => simp [insertByKey]
  | cons b t ih =>
    simp only [insertByKey]
    split
    · simp
    · simp only [List.mem_cons, ih]
      tauto

theorem insertByKey_perm {α : Type} (key : α → ℚ) (a : α) (l : List α) :
    List.Perm (insertByKey key a l) (a :: l) := by
  induction l with
  | nil => simp [insertByKey]
  | cons b t ih =>
    simp only [insertByKey]
    split
    · exact List.Perm.refl _
    · exact (ih.cons b).trans (List.Perm.swap a b t)

theorem sortByKey_perm {α : Type} (key : α → ℚ) (l : List α) :
    List.Perm (sortByKey key l) l := by
  induction l with
  | nil => simp [sortByKey]
  | cons a t ih =>
    exact (insertByKey_perm key a (sortByKey key t)).trans (ih.cons a)

theorem insertByKey_sorted {α : Type} (key : α → ℚ) (a : α) (l : List α)
    (h : l.Sorted (fun x y => key x ≤ key y)) :
    (insertByKey key a l).Sorted (fun x y => key x ≤ key y) := by
  induction l with
  | nil => simp [insertByKey]
  | cons b t ih =>
    rw [List.sorted_cons] at h
    obtain ⟨hb, ht⟩ := h
    simp only [insertByKey]
    split
    · rename_i hle
      rw [List.sorted_cons]
      refine ⟨?_, ?_⟩
      · intro x hx
        rcases List.mem_cons.mp hx with rfl | hx
        · exact hle
        · exact le_trans hle (hb x hx)
      · rw [List.sorted_cons]
        exact ⟨hb, ht⟩
    · rename_i hnle
      rw [List.sorted_cons]
      refine ⟨?_, ih ht⟩
      intro x hx
      rcases (mem_insertByKey key a x t).mp hx with rfl | hx
      · exact le_of_not_le hnle
      · exact hb x hx

theorem sortByKey_sorted {α : Type} (key : α → ℚ) (l : List α) :
    (sortByKey key l).Sorted (fun x y => key x ≤ key y) := by
  induction l with
  | nil => simp [sortByKey]
  | cons a t ih => exact insertByKey_sorted key a _ ih

theorem sorted_key_perm_eq {α : Type} (key : α → ℚ) :
    ∀ (l₁ l₂ : List α), List.Perm l₁ l₂ →
      l₁.Sorted (fun x y => key x ≤ key y) → l₂.Sorted (fun x y => key x ≤ key y) →
      (∀ a ∈ l₁, ∀ b ∈ l₁, key a = key b → a = b) → l₁ = l₂
  | [], l₂, hp, _, _, _ => (hp.nil_eq).symm ▸ rfl
  | a :: t₁, l₂, hp, hs₁, hs₂, hinj => by
    have ha₂ : a ∈ l₂ := hp.mem_iff.mp (List.mem_cons_self a t₁)
    match l₂, hs₂ with
    | b :: t₂, hs₂ => ?_
    rw [List.sorted_cons] at hs₁ hs₂
    have hb₁ : b ∈ a :: t₁ := hp.mem_iff.mpr (List.mem_cons_self b t₂)
    have hab : a = b := by
      rcases List.mem_cons.mp ha₂ with h | h
      · exact h
      · rcases List.mem_cons.mp hb₁ with h' | h'
        · exact h'.symm
        · exact hinj a (List.mem_cons_self a t₁) b hb₁
            (le_antisymm (hs₁.1 b h') (hs₂.1 a h))
    subst hab
    have hpt : List.Perm t₁ t₂ := (List.perm_cons a).mp hp
    have := sorted_key_perm_eq key t₁ t₂ hpt hs₁.2 hs₂.2
      (fun x hx y hy h => hinj x (List.mem_cons_of_mem a hx) y (List.mem_cons_of_mem a hy) h)
    rw [this]

theorem sortByKey_eq_of_perm {α : Type} (key : α → ℚ) (l₁ l₂ : List α)
    (hp : List.Perm l₁ l₂)
    (hinj : ∀ a ∈ l₁, ∀ b ∈ l₁, key a = key b → a = b) :
    sortByKey key l₁ = sortByKey key l₂ := by
  refine sorted_key_perm_eq key _ _ ?_ (sortByKey_sorted key l₁) (sortByKey_sorted key l₂) ?_
  · exact (sortByKey_perm key l₁).trans (hp.trans (sortByKey_perm key l₂).symm)
  · intro a ha b hb h
    exact hinj a ((sortByKey_perm key l₁).mem_iff.mp ha)
      b ((sortByKey_perm key l₁).mem_iff.mp hb) h

/-! ### Outlier scoring (spec-modelled)

`qc_analysis.py::detect_outliers` calls `outlier.detect_outliers_loop(data, k,
metric=dist)`; the `outlier` module is not among the available sources, so the
scorer is modelled from the specification. -/

/-- Error taxonomy of the engine (spec section 7). -/
inductive QCErr
  | insufficientData
  | invalidMetric
deriving DecidableEq

instance {ε α : Type} [DecidableEq ε] [DecidableEq α] : DecidableEq (Except ε α) :=
  fun a b =>
    match a, b with
    | .error e, .error f =>
      if h : e = f then isTrue (by rw [h]) else isFalse (fun hh => by cases hh; exact h rfl)
    | .ok x, .ok y =>
      if h : x = y then isTrue (by rw [h]) else isFalse (fun hh => by cases hh; exact h rfl)
    | .error _, .ok _ => isFalse (fun hh => by cases hh)
    | .ok _, .error _ => isFalse (fun hh => by cases hh)

/-- The row stored for experiment id `i`, looked up in the (id, row) list. -/
def rowOf (rows : List (ℕ × Row)) (i : ℕ) : Row :=
  (rows.find? (fun p => p.1 == i)).elim [] Prod.snd

/-- All experiments other than `i`, in stable row order. -/
def candidates (rows : List (ℕ × Row)) (i : ℕ) : List (ℕ × Row) :=
  rows.filter (fun p => p.1 != i)

/-- Modelled from the spec: `NeighborSet(i, k)` (spec section 3) — the `k`
experiments nearest to `i` under the metric `d`, excluding `i` itself, ties
broken by stable row order. -/
def kNN (d : Row → Row → ℚ) (rows : List (ℕ × Row)) (i k : ℕ) : List (ℕ × Row) :=
  (sortByKey (fun p => d (rowOf rows i) p.2) (candidates rows i)).take k

/-- Modelled from the spec: the squared probabilistic set distance of
experiment `i` — the mean of squared distances to its `k` nearest neighbors
(the square-root step of the LOOP root-mean-square construction is kept in
squared form, which is rational and order-preserving). -/
def pdistSq (d : Row → Row → ℚ) (rows : List (ℕ × Row)) (k i : ℕ) : ℚ :=
  let nb := kNN d rows i k
  ((nb.map (fun p => (d (rowOf rows i) p.2) ^ 2)).sum) / nb.length

/-- Modelled from the spec: the probabilistic local outlier factor of `i` —
its own set distance normalized against the expected set distance of its
neighborhood, with the degenerate-neighborhood fallback to `0` (spec section
4.2: all-identical neighbor distances must not produce division by zero). -/
def plofQ (d : Row → Row → ℚ) (rows : List (ℕ × Row)) (k i : ℕ) : ℚ :=
  let nb := kNN d rows i k
  let expected := ((nb.map (fun p => pdistSq d rows k p.1)).sum) / nb.length
  if expected = 0 then 0 else pdistSq d rows k i / expected - 1

/-- Modelled from the spec: the aggregate (squared) normalization factor of
the PLOF values over the whole population. -/
def nplofSq (d : Row → Row → ℚ) (rows : List (ℕ × Row)) (k : ℕ) : ℚ :=
  ((rows.map (fun p => (plofQ d rows k p.1) ^ 2)).sum) / rows.length

/-- Modelled from the spec: `outlier.detect_outliers_loop` is not in the
available sources; the LOOP score of experiment `i` is modelled as the PLOF
deviation normalized by the population factor and mapped into `[0,1]` (the
Gaussian error-function transform is replaced by a rational sign-preserving
surrogate followed by the `[0,1]` clamp that the spec requires), with the
degenerate fallback to `0` when the population factor vanishes. -/
def loopScore (d : Row → Row → ℚ) (rows : List (ℕ × Row)) (k i : ℕ) : ℚ :=
  if nplofSq d rows k = 0 then 0
  else clamp01 (plofQ d rows k i * |plofQ d rows k i| / nplofSq d rows k)

/-- Modelled from the spec: the scoring step raises `InsufficientDataError`
exactly when `k` is too large for the number of experiments (spec sections
4.1 and 4.2); otherwise it returns the score mapping. -/
def detectOutliersLoopE (d : Row → Row → ℚ) (k : ℕ) (rows : List (ℕ × Row)) :
    Except QCErr (ℕ → ℚ) :=
  if rows.length ≤ k then .error .insufficientData else .ok (loopScore d rows k)

/-! ### Threshold estimation (spec-modelled) -/

/-- Count of scores falling into bin `b` of `numBins` equal-width bins
spanning `[0,1]`. -/
def binCount (scores : List ℚ) (numBins b : ℕ) : ℕ :=
  scores.countP (fun s => decide ((b : ℚ) / numBins ≤ s ∧ s < ((b : ℚ) + 1) / numBins))

/-- Largest score of a list (0 for the empty list). -/
def maxScore (l : List ℚ) : ℚ := l.foldr max 0

/-- Modelled from the spec: `outlier.detect_outlier_score_threshold` is not in
the available sources.  Degenerate case per spec section 4.3: all scores
identical gives that score plus one bin width (bin width `1/num_bins` for the
histogram spanning `[0,1]`).  Otherwise the cutoff is the smallest bin
boundary beyond which the tail departs from the bulk, with the configurable
rarity criterion instantiated as the first empty histogram bin (falling back
to the maximum score plus one bin width when no bin is empty). -/
def detectOutlierScoreThreshold (scores : List ℚ) (numBins : ℕ) : ℚ :=
  match scores with
  | [] => 1 / (numBins : ℚ)
  | a :: t =>
    if t.all (fun x => decide (x = a)) then a + 1 / (numBins : ℚ)
    else
      match (List.range numBins).find? (fun b => binCount (a :: t) numBins b == 0) with
      | some b => ((b : ℚ) + 1) / numBins
      | none => maxScore (a :: t) + 1 / (numBins : ℚ)

/-! ### Inlier/outlier split (spec-modelled) -/

/-- Modelled from the spec: `outlier.split_outliers` is not in the available
sources; per spec section 4.4 the split is strict — experiment `i` is an
outlier iff `scores[i] > threshold` — and the inlier matrix is the
complementary row set in original order. -/
def splitOutliers (rows : List (ℕ × Row)) (scores : ℕ → ℚ) (t : ℚ) :
    List (ℕ × Row) × List (ℕ × Row) :=
  (rows.filter (fun p => decide (scores p.1 ≤ t)),
   rows.filter (fun p => decide (t < scores p.1)))

/-- Embedded from `src/visualize.py::scatter_outliers` (line 137): a point is
drawn highlighted (marker `o`, scaled size) exactly when
`outlier_scores[i] > score_threshold`, else as a grey dot. -/
def scatterIsHighlighted (scores : ℕ → ℚ) (t : ℚ) (i : ℕ) : Bool :=
  decide (scores i > t)

/-! ### Subspace explanation (spec-modelled)

`qc_analysis.py::detect_outliers` calls
`outlier.get_outlier_subspace(data_including_outliers, this_outlier, k)`; the
`outlier` module is not among the available sources, so the explainer is
modelled from spec section 4.5. -/

/-- Restrict a row to the columns whose metric name lies in the subspace `S`
(column order preserved). -/
def projRow (names S : List String) (r : Row) : Row :=
  ((names.zip r).filter (fun p => decide (p.1 ∈ S))).map Prod.snd

/-- Modelled from the spec: the outlier's local deviation in the candidate
subspace `S` — the average distance from the outlier to its `k` nearest
neighbors with all rows restricted to the columns of `S` (spec section 4.5:
the local density score recomputed in the candidate subspace). -/
def subspaceDev (names S : List String) (rows : List (ℕ × Row)) (o : ℕ × Row) (k : ℕ) : ℚ :=
  let cand := rows.filter (fun p => p.1 != o.1)
  let nb := (sortByKey (fun p => manhattan (projRow names S o.2) (projRow names S p.2)) cand).take k
  ((nb.map (fun p => manhattan (projRow names S o.2) (projRow names S p.2))).sum) / nb.length

/-- Modelled from the spec: the first metric whose removal strictly increases
the outlier's deviation (spec section 4.5 allows the greedy policy that keeps
a removal exactly when it increases the outlier's distinctiveness). -/
def firstImprovingRemoval (names : List String) (rows : List (ℕ × Row))
    (o : ℕ × Row) (k : ℕ) (S : List String) : Option String :=
  S.find? (fun m => decide (subspaceDev names S rows o k < subspaceDev names (S.erase m) rows o k))

/-- Modelled from the spec: greedy backward subspace search — starting from
the full metric set, repeatedly remove a metric while doing so strictly
increases the outlier's deviation, never shrinking below one metric.  The
fuel argument bounds the number of removals (each step removes one metric). -/
def greedySubspace (names : List String) (rows : List (ℕ × Row)) (o : ℕ × Row) (k : ℕ) :
    ℕ → List String → List String
  | 0, S => S
  | fuel + 1, S =>
    if S.length ≤ 1 then S
    else
      match firstImprovingRemoval names rows o k S with
      | some m => greedySubspace names rows o k fuel (S.erase m)
      | none => S

/-- Modelled from the spec: the subspace retained by the greedy backward
search, started from the full metric set with enough fuel for every possible
removal. -/
def explSubspace (names : List String) (rows : List (ℕ × Row))
    (o : ℕ × Row) (k : ℕ) : List String :=
  greedySubspace names rows o k names.length names

/-- Modelled from the spec: the marginal contribution of each retained metric
— how much removing that single metric from the selected subspace would
reduce the outlier's deviation (spec section 4.5). -/
def explMarginals (names : List String) (rows : List (ℕ × Row))
    (o : ℕ × Row) (k : ℕ) : List (String × ℚ) :=
  (explSubspace names rows o k).map (fun m =>
    (m, subspaceDev names (explSubspace names rows o k) rows o k -
        subspaceDev names ((explSubspace names rows o k).erase m) rows o k))

/-- Modelled from the spec: `outlier.get_outlier_subspace` — runs the greedy
backward search from the full metric set, then assigns each retained metric
the normalized marginal contribution of keeping it, falling back to uniform
weights when every marginal vanishes; returns the importance vector paired
with the subspace. -/
def getOutlierSubspace (names : List String) (rows : List (ℕ × Row))
    (o : ℕ × Row) (k : ℕ) : List (String × ℚ) × List String :=
  (if ((explMarginals names rows o k).map Prod.snd).sum = 0 then
     (explSubspace names rows o k).map
       (fun m => (m, 1 / ((explSubspace names rows o k).length : ℚ)))
   else
     (explMarginals names rows o k).map
       (fun p => (p.1, p.2 / ((explMarginals names rows o k).map Prod.snd).sum)),
   explSubspace names rows o k)

/-! ### Pipeline orchestration, embedded from `src/qc_analysis.py` -/

/-- The metric matrix handed to `detect_outliers`: named metric columns and
one identified row per experiment. -/
structure MetricMatrix where
  names : List String
  rows : List (ℕ × Row)

/-- One flagged outlier as accumulated by the explanation loop of
`qc_analysis.py::detect_outliers` (lines 52-58): its id, score, the
`FeatureImportance` values and the `Subspace`. -/
structure OutlierRecord where
  id : ℕ
  score : ℚ
  featureImportance : List (String × ℚ)
  subspace : List String
deriving DecidableEq

/-- Embedded from `src/qc_analysis.py::detect_outliers` (lines 37-63):
compute the outlier scores; derive the threshold from the score histogram
when none is supplied; save the full matrix (`data_including_outliers`)
before the split reassigns `data`; split off the outliers; and explain each
flagged outlier once against the saved full matrix. -/
def detectOutliers (d : Row → Row → ℚ) (M : MetricMatrix) (k : ℕ)
    (outlierThreshold : Option ℚ) (numBins : ℕ) :
    Except QCErr (List (ℕ × Row) × List OutlierRecord) :=
  match detectOutliersLoopE d k M.rows with
  | .error e => .error e
  | .ok outlierScores =>
    let t := match outlierThreshold with
      | some t0 => t0
      | none => detectOutlierScoreThreshold (M.rows.map (fun p => outlierScores p.1)) numBins
    let dataIncludingOutliers := M.rows
    let split := splitOutliers M.rows outlierScores t
    let recs := split.2.map (fun o =>
      let e := getOutlierSubspace M.names dataIncludingOutliers o k
      { id := o.1, score := outlierScores o.1, featureImportance := e.1, subspace := e.2 })
    .ok (split.1, recs)

/-! ### Frequent subspace mining, embedded from `src/qc_analysis.py::analyze_outliers`

The itemset enumeration itself is done by the external `fim` library, which is
not part of the repository; it is modelled from the spec.  The surrounding
sort (`sorted(..., key=lambda x: x[1][0], reverse=True)`, line 68) is embedded
from the source. -/

/-- The metric names occurring in the outlier subspaces, first occurrences
deduplicated. -/
def itemUniverse (txs : List (List String)) : List String :=
  txs.flatten.dedup

/-- Number of outlier subspaces (transactions) that are supersets of the
itemset `S`. -/
def supportCount (txs : List (List String)) (S : List String) : ℕ :=
  txs.countP (fun T => decide (S ⊆ T))

/-- Modelled from the spec: the support floor resolved from the `min_support`
parameter — a non-negative value is a percentage of the outlier population, a
negative value an absolute minimum count (spec sections 4.6 and 6, matching
the `--min_sup` help text of `qc_analysis.py::parse_args`). -/
def resolveSupportFloor (minSup : ℚ) (n : ℕ) : ℚ :=
  if 0 ≤ minSup then minSup * n / 100 else -minSup

/-- Modelled from the spec: the external `fim.fim(transactions, supp, zmin)`
call — every itemset over the occurring metric names whose size is at least
`minLen` and whose exact support meets the resolved floor, paired with that
support; emitted in subset-enumeration order (the library does not specify
its emission order). -/
def fimModel (txs : List (List String)) (minSup : ℚ) (minLen : ℕ) :
    List (List String × ℕ) :=
  (((itemUniverse txs).sublists).filter
      (fun S => decide (minLen ≤ S.length ∧
        resolveSupportFloor minSup txs.length ≤ (supportCount txs S : ℚ)))).map
    (fun S => (S, supportCount txs S))

/-- Embedded from `src/qc_analysis.py::analyze_outliers` (line 68): the mined
itemsets sorted by support descending via Python's stable `sorted` with
`key=lambda x: x[1][0]` and `reverse=True` (equal supports keep the miner's
emission order). -/
def analyzeOutliers (txs : List (List String)) (minSup : ℚ) (minLen : ℕ) :
    List (List String × ℕ) :=
  sortByKey (fun e => -(e.2 : ℚ)) (fimModel txs minSup minLen)

/-! ### The spec's claimed output ordering (spec-side definitions, used to
compare the source's ordering against the specification's words) -/

/-- Strict lexicographic order on character lists, by character code. -/
def charListLt : List Char → List Char → Bool
  | [], [] => false
  | [], _ :: _ => true
  | _ :: _, [] => false
  | a :: s, b :: t =>
    if a.toNat < b.toNat then true
    else if b.toNat < a.toNat then false
    else charListLt s t

/-- Strict lexicographic order on metric names. -/
def strLt (a b : String) : Bool := charListLt a.data b.data

/-- Insert a string into a list in ascending lexical order. -/
def insertStr (a : String) : List String → List String
  | [] => [a]
  | b :: l => if strLt a b then a :: b :: l else b :: insertStr a l

/-- Sort metric names ascending (for the spec's "lexical order of the sorted
metric names"). -/
def sortStr (l : List String) : List String :=
  l.foldr insertStr []

/-- Strict lexicographic order on lists of metric names. -/
def strListLt : List String → List String → Bool
  | [], [] => false
  | [], _ :: _ => true
  | _ :: _, [] => false
  | a :: s, b :: t => if strLt a b then true else if strLt b a then false else strListLt s t

/-- The spec's claimed order between adjacent mining results: descending
support, ties broken by ascending itemset size and then lexical order of the
sorted metric names (spec sections 3 and 4.6). -/
def specMineOrder (x y : List String × ℕ) : Prop :=
  y.2 < x.2 ∨ (x.2 = y.2 ∧ (x.1.length < y.1.length ∨
    (x.1.length = y.1.length ∧ strListLt (sortStr x.1) (sortStr y.1) = true)))

instance (x y : List String × ℕ) : Decidable (specMineOrder x y) :=
  inferInstanceAs (Decidable (y.2 < x.2 ∨ (x.2 = y.2 ∧ (x.1.length < y.1.length ∨
    (x.1.length = y.1.length ∧ strListLt (sortStr x.1) (sortStr y.1) = true)))))

/-- Boolean check that adjacent mining results follow the spec's claimed
order. -/
def specMineOrderedB : List (List String × ℕ) → Bool
  | [] => true
  | [_] => true
  | x :: y :: t => decide (specMineOrder x y) && specMineOrderedB (y :: t)

/-- A mining result list ordered as the spec claims. -/
def specMineOrdered (l : List (List String × ℕ)) : Prop :=
  specMineOrderedB l = true

instance (l : List (List String × ℕ)) : Decidable (specMineOrdered l) :=
  inferInstanceAs (Decidable (specMineOrderedB l = true))

/-! ### PSM comparison, embedded from `src/qc_analysis.py::compare_outlier_psms` -/

/-- Embedded from `src/qc_analysis.py::compare_outlier_psms` (lines 84-93):
`psms.filter(items=ids)` keeps, in the order of `ids`, the entries of the
series whose label occurs in it; `psms.drop(outlier_psms.index)` then keeps
the entries whose label is not among the selected ones.  Returns
`(outlier_psms, inlier_psms)`. -/
def compareOutlierPsms {β : Type} (psms : List (String × β)) (outlierIds : List String) :
    List (String × β) × List (String × β) :=
  let outlierPsms := outlierIds.filterMap
    (fun i => (psms.find? (fun p => p.1 == i)).map (fun p => (i, p.2)))
  let outlierLabels := outlierPsms.map Prod.fst
  let inlierPsms := psms.filter (fun p => decide (p.1 ∉ outlierLabels))
  (outlierPsms, inlierPsms)

/-! ## Claim theorems

The rational arithmetic of the embedding must evaluate inside `decide`
proofs, so the library's irreducibility markers on the `Rat` operations are
lowered locally. -/

attribute [local semireducible] Rat.mul Rat.add Rat.sub Rat.inv

/-- C2: for every score mapping and threshold, `split` partitions the
experiments exactly — outliers and inliers are disjoint, their union is all
experiments, an experiment is an outlier iff its score is strictly greater
than the threshold (so a score exactly at the threshold is an inlier), and
the highlighting in `visualize.py::scatter_outliers` marks exactly the
outliers. -/
theorem splitOutliers_strict_partition (rows : List (ℕ × Row)) (scores : ℕ → ℚ) (t : ℚ) :
    (∀ p, p ∈ (splitOutliers rows scores t).2 ↔ p ∈ rows ∧ scores p.1 > t) ∧
    (∀ p, p ∈ (splitOutliers rows scores t).1 ↔ p ∈ rows ∧ ¬ scores p.1 > t) ∧
    (∀ p, ¬(p ∈ (splitOutliers rows scores t).1 ∧ p ∈ (splitOutliers rows scores t).2)) ∧
    (∀ p ∈ rows, p ∈ (splitOutliers rows scores t).1 ∨ p ∈ (splitOutliers rows scores t).2) ∧
    (∀ p ∈ rows, scores p.1 = t → p ∈ (splitOutliers rows scores t).1) ∧
    (∀ p ∈ rows, scatterIsHighlighted scores t p.1 = true ↔ p ∈ (splitOutliers rows scores t).2) := by
  refine ⟨?_, ?_, ?_, ?_, ?_, ?_⟩
  · intro p
    simp [splitOutliers, List.mem_filter, gt_iff_lt]
  · intro p
    simp [splitOutliers, List.mem_filter, gt_iff_lt, not_lt]
  · intro p
    simp only [splitOutliers, List.mem_filter, decide_eq_true_eq]
    rintro ⟨⟨-, h₁⟩, -, h₂⟩
    exact absurd h₁ (not_le.mpr h₂)
  · intro p hp
    simp only [splitOutliers, List.mem_filter, decide_eq_true_eq]
    rcases le_or_lt (scores p.1) t with h | h
    · exact Or.inl ⟨hp, h⟩
    · exact Or.inr ⟨hp, h⟩
  · intro p hp h
    simp only [splitOutliers, List.mem_filter, decide_eq_true_eq]
    exact ⟨hp, le_of_eq h⟩
  · intro p hp
    simp [splitOutliers, scatterIsHighlighted, List.mem_filter, hp]

theorem splitOutliers_strict_partition_witness :
    ((0 : ℕ), ([0] : Row)) ∈
      (splitOutliers [((0 : ℕ), ([0] : Row)), (1, [0])]
        (fun i => if i = 0 then 1/2 else 1) (1/2)).1 ∧
    ((1 : ℕ), ([0] : Row)) ∈
      (splitOutliers [((0 : ℕ), ([0] : Row)), (1, [0])]
        (fun i => if i = 0 then 1/2 else 1) (1/2)).2 :=
  ⟨(splitOutliers_strict_partition [((0 : ℕ), ([0] : Row)), (1, [0])]
      (fun i => if i = 0 then 1/2 else 1) (1/2)).2.2.2.2.1
    ((0 : ℕ), ([0] : Row)) (by decide) (by norm_num),
   ((splitOutliers_strict_partition [((0 : ℕ), ([0] : Row)), (1, [0])]
      (fun i => if i = 0 then 1/2 else 1) (1/2)).1
    ((1 : ℕ), ([0] : Row))).mpr ⟨by decide, by norm_num⟩⟩

/-- C8: the scoring step fails with `InsufficientDataError` exactly when `k`
is too large for the `n` experiments of the matrix — it errors whenever
`k ≥ n`, and for `k < n - 1` it succeeds (so increasing `k` cannot raise
`InsufficientDataError` unless `k ≥ n - 1`). -/
theorem detectOutliersLoopE_insufficient_data (d : Row → Row → ℚ)
    (rows : List (ℕ × Row)) (k : ℕ) :
    (rows.length ≤ k → detectOutliersLoopE d k rows = .error .insufficientData) ∧
    (k + 1 < rows.length → detectOutliersLoopE d k rows = .ok (loopScore d rows k)) := by
  constructor
  · intro h
    simp [detectOutliersLoopE, h]
  · intro h
    have : ¬ rows.length ≤ k := by omega
    simp [detectOutliersLoopE, this]

theorem detectOutliersLoopE_insufficient_data_witness :
    detectOutliersLoopE manhattan 3 [((0 : ℕ), ([0] : Row)), (1, [1]), (2, [2])] =
      .error .insufficientData ∧
    detectOutliersLoopE manhattan 1 [((0 : ℕ), ([0] : Row)), (1, [1]), (2, [2])] =
      .ok (loopScore manhattan [((0 : ℕ), ([0] : Row)), (1, [1]), (2, [2])] 1) :=
  ⟨(detectOutliersLoopE_insufficient_data manhattan
      [((0 : ℕ), ([0] : Row)), (1, [1]), (2, [2])] 3).1 (by decide),
   (detectOutliersLoopE_insufficient_data manhattan
      [((0 : ℕ), ([0] : Row)), (1, [1]), (2, [2])] 1).2 (by decide)⟩

/-- Members of a list with nodup keys are determined by their key. -/
theorem key_injective {β : Type} (l : List (String × β))
    (hnd : (l.map Prod.fst).Nodup) :
    ∀ p ∈ l, ∀ q ∈ l, p.1 = q.1 → p = q :=
  fun _ hp _ hq h => List.inj_on_of_nodup_map hnd hp hq h

/-- C10: `compare_outlier_psms` partitions the PSM series — the returned
outlier series contains exactly the entries whose id appears among the
outliers, the inlier series exactly the remaining entries, the two are
disjoint, and together they cover every entry of the input series. -/
theorem compareOutlierPsms_partition {β : Type} (psms : List (String × β))
    (outIds : List String) (hnd : (psms.map Prod.fst).Nodup) :
    (∀ p, p ∈ (compareOutlierPsms psms outIds).1 ↔ p ∈ psms ∧ p.1 ∈ outIds) ∧
    (∀ p, p ∈ (compareOutlierPsms psms outIds).2 ↔ p ∈ psms ∧ p.1 ∉ outIds) ∧
    (∀ p, ¬(p ∈ (compareOutlierPsms psms outIds).1 ∧ p ∈ (compareOutlierPsms psms outIds).2)) ∧
    (∀ p ∈ psms, p ∈ (compareOutlierPsms psms outIds).1 ∨ p ∈ (compareOutlierPsms psms outIds).2) := by
  have hout : ∀ p, p ∈ (compareOutlierPsms psms outIds).1 ↔ p ∈ psms ∧ p.1 ∈ outIds := by
    intro p
    simp only [compareOutlierPsms, List.mem_filterMap, Option.map_eq_some']
    constructor
    · rintro ⟨i, hi, q, hq, rfl⟩
      have hqmem : q ∈ psms := List.mem_of_find?_eq_some hq
      have hqi : q.1 = i := by
        have := List.find?_some hq
        simpa using this
      have : (i, q.2) = q := by
        rw [← hqi]
      rw [this]
      exact ⟨hqmem, hqi ▸ hi⟩
    · rintro ⟨hp, hid⟩
      refine ⟨p.1, hid, ?_⟩
      have hsome : (psms.find? (fun q => q.1 == p.1)).isSome := by
        rw [List.find?_isSome]
        exact ⟨p, hp, by simp⟩
      obtain ⟨q, hq⟩ := Option.isSome_iff_exists.mp hsome
      have hqmem : q ∈ psms := List.mem_of_find?_eq_some hq
      have hqi : q.1 = p.1 := by
        have := List.find?_some hq
        simpa using this
      have hqp : q = p := key_injective psms hnd q hqmem p hp hqi
      exact ⟨q, hq, by rw [hqp]⟩
  have hlab : ∀ p ∈ psms,
      (p.1 ∈ (compareOutlierPsms psms outIds).1.map Prod.fst ↔ p.1 ∈ outIds) := by
    intro p hp
    constructor
    · intro h
      obtain ⟨q, hq, hqe⟩ := List.mem_map.mp h
      obtain ⟨-, hq2⟩ := (hout q).mp hq
      exact hqe ▸ hq2
    · intro h
      exact List.mem_map.mpr ⟨p, (hout p).mpr ⟨hp, h⟩, rfl⟩
  have hin : ∀ p, p ∈ (compareOutlierPsms psms outIds).2 ↔ p ∈ psms ∧ p.1 ∉ outIds := by
    intro p
    constructor
    · intro h
      have h' := List.mem_filter.mp h
      refine ⟨h'.1, ?_⟩
      intro hid
      have := (hlab p h'.1).mpr hid
      have hd := h'.2
      simp only [decide_eq_true_eq] at hd
      exact hd this
    · rintro ⟨hp, hid⟩
      refine List.mem_filter.mpr ⟨hp, ?_⟩
      simp only [decide_eq_true_eq]
      intro h
      exact hid ((hlab p hp).mp h)
  refine ⟨hout, hin, ?_, ?_⟩
  · rintro p ⟨h₁, h₂⟩
    exact ((hin p).mp h₂).2 ((hout p).mp h₁).2
  · intro p hp
    by_cases h : p.1 ∈ outIds
    · exact Or.inl ((hout p).mpr ⟨hp, h⟩)
    · exact Or.inr ((hin p).mpr ⟨hp, h⟩)

theorem compareOutlierPsms_partition_witness :
    (("e1", (5 : ℚ)) ∈ (compareOutlierPsms [("e1", (5 : ℚ)), ("e2", 7)] ["e1"]).1) ∧
    (("e2", (7 : ℚ)) ∈ (compareOutlierPsms [("e1", (5 : ℚ)), ("e2", 7)] ["e1"]).2) :=
  ⟨((compareOutlierPsms_partition [("e1", (5 : ℚ)), ("e2", 7)] ["e1"] (by decide)).1
      ("e1", (5 : ℚ))).mpr ⟨by decide, by decide⟩,
   ((compareOutlierPsms_partition [("e1", (5 : ℚ)), ("e2", 7)] ["e1"] (by decide)).2.1
      ("e2", (7 : ℚ))).mpr ⟨by decide, by decide⟩⟩

/-- Membership characterization of the mined result list. -/
theorem mem_analyzeOutliers_iff (txs : List (List String)) (minSup : ℚ) (minLen : ℕ)
    (e : List String × ℕ) :
    e ∈ analyzeOutliers txs minSup minLen ↔
      e.1 ∈ (itemUniverse txs).sublists ∧ minLen ≤ e.1.length ∧
      resolveSupportFloor minSup txs.length ≤ (supportCount txs e.1 : ℚ) ∧
      e.2 = supportCount txs e.1 := by
  unfold analyzeOutliers
  rw [(sortByKey_perm _ _).mem_iff]
  unfold fimModel
  simp only [List.mem_map, List.mem_filter, decide_eq_true_eq]
  constructor
  · rintro ⟨S, ⟨hS, hlen, hsup⟩, rfl⟩
    exact ⟨hS, hlen, hsup, rfl⟩
  · rintro ⟨hS, hlen, hsup, he⟩
    refine ⟨e.1, ⟨hS, hlen, hsup⟩, ?_⟩
    rw [← he]

/-- C3: the mining stage returns exactly the itemsets over the occurring
metric names of size at least `min_length` whose exact support meets the
resolved floor, each paired with the exact number of outlier subspaces that
are supersets of it; on the transactions
`[[A,B],[A,B],[A],[B,C]]` with absolute support `2` and `min_length = 1` it
returns `{A}` and `{B}` with support 3 and `{A,B}` with support 2, and
returns neither `{C}` nor `{B,C}`. -/
theorem analyzeOutliers_exact (txs : List (List String)) (minSup : ℚ) (minLen : ℕ) :
    (∀ S c, (S, c) ∈ analyzeOutliers txs minSup minLen →
      c = supportCount txs S ∧ minLen ≤ S.length ∧
      resolveSupportFloor minSup txs.length ≤ (supportCount txs S : ℚ)) ∧
    (∀ S, S ∈ (itemUniverse txs).sublists → minLen ≤ S.length →
      resolveSupportFloor minSup txs.length ≤ (supportCount txs S : ℚ) →
      (S, supportCount txs S) ∈ analyzeOutliers txs minSup minLen) ∧
    ((["A"], 3) ∈ analyzeOutliers [["A", "B"], ["A", "B"], ["A"], ["B", "C"]] (-2) 1 ∧
     (["B"], 3) ∈ analyzeOutliers [["A", "B"], ["A", "B"], ["A"], ["B", "C"]] (-2) 1 ∧
     (["A", "B"], 2) ∈ analyzeOutliers [["A", "B"], ["A", "B"], ["A"], ["B", "C"]] (-2) 1 ∧
     ∀ e ∈ analyzeOutliers [["A", "B"], ["A", "B"], ["A"], ["B", "C"]] (-2) 1,
       e.1 ≠ ["C"] ∧ e.1 ≠ ["B", "C"]) := by
  refine ⟨?_, ?_, by decide, by decide, by decide, by decide⟩
  · intro S c h
    have := (mem_analyzeOutliers_iff txs minSup minLen (S, c)).mp h
    exact ⟨this.2.2.2, this.2.1, this.2.2.1⟩
  · intro S hS hlen hsup
    exact (mem_analyzeOutliers_iff txs minSup minLen (S, supportCount txs S)).mpr
      ⟨hS, hlen, hsup, rfl⟩

theorem analyzeOutliers_exact_witness :
    (["A"], supportCount [["A", "B"], ["A", "B"], ["A"], ["B", "C"]] ["A"]) ∈
      analyzeOutliers [["A", "B"], ["A", "B"], ["A"], ["B", "C"]] (-2) 1 :=
  (analyzeOutliers_exact [["A", "B"], ["A", "B"], ["A"], ["B", "C"]] (-2) 1).2.1
    ["A"] (by decide) (by decide) (by decide)

/-- C4: the `min_support` value forwarded by `analyze_outliers` to the miner
is interpreted by sign — a non-negative value resolves to a relative floor
(a percentage of the outlier population), a negative value to an absolute
minimum count — and every returned itemset's support meets the resolved
floor. -/
theorem minSup_sign_convention (txs : List (List String)) (minLen : ℕ) (s : ℚ) :
    (0 ≤ s → resolveSupportFloor s txs.length = s * txs.length / 100 ∧
      ∀ e ∈ analyzeOutliers txs s minLen, s * txs.length / 100 ≤ (e.2 : ℚ)) ∧
    (s < 0 → resolveSupportFloor s txs.length = -s ∧
      ∀ e ∈ analyzeOutliers txs s minLen, -s ≤ (e.2 : ℚ)) := by
  constructor
  · intro hs
    have hfloor : resolveSupportFloor s txs.length = s * txs.length / 100 := by
      simp [resolveSupportFloor, hs]
    refine ⟨hfloor, ?_⟩
    intro e he
    have h := (mem_analyzeOutliers_iff txs s minLen e).mp he
    rw [← hfloor, h.2.2.2]
    exact h.2.2.1
  · intro hs
    have hfloor : resolveSupportFloor s txs.length = -s := by
      simp [resolveSupportFloor, not_le.mpr hs]
    refine ⟨hfloor, ?_⟩
    intro e he
    have h := (mem_analyzeOutliers_iff txs s minLen e).mp he
    rw [← hfloor, h.2.2.2]
    exact h.2.2.1

theorem minSup_sign_convention_witness :
    resolveSupportFloor (-2) ([["A", "B"], ["A", "B"], ["A"], ["B", "C"]] :
      List (List String)).length = 2 := by
  have := ((minSup_sign_convention [["A", "B"], ["A", "B"], ["A"], ["B", "C"]] 1 (-2)).2
    (by norm_num)).1
  simpa using this

/-- C6 counterexample: on the subspaces `[[A,B],[A,B],[C],[C]]` with absolute
support `2` and `min_length = 1`, the sequence returned by
`analyze_outliers` is not ordered by the spec's tie-break (ascending itemset
size then lexical name order among equal supports): the size-2 itemset
`[A,B]` precedes the size-1 itemset `[C]` at equal support. -/
theorem analyzeOutliers_tie_order_cex :
    ¬ specMineOrdered (analyzeOutliers [["A", "B"], ["A", "B"], ["C"], ["C"]] (-2) 1) := by
  decide

/-- C6 (amended): the sequence returned by `analyze_outliers` is ordered by
descending support; equal-support itemsets keep the miner's emission order
(Python's stable `sorted` with the support-only key), with no size or lexical
tie-breaking applied. -/
theorem analyzeOutliers_sorted_desc (txs : List (List String)) (minSup : ℚ) (minLen : ℕ) :
    (analyzeOutliers txs minSup minLen).Sorted (fun x y => y.2 ≤ x.2) := by
  have h := sortByKey_sorted (fun e : List String × ℕ => -((e.2 : ℚ)))
    (fimModel txs minSup minLen)
  refine List.Pairwise.imp ?_ h
  intro a b hab
  have : (b.2 : ℚ) ≤ (a.2 : ℚ) := by linarith
  exact_mod_cast this

theorem manhattan_self : ∀ r : Row, manhattan r r = 0
  | [] => by simp [manhattan]
  | a :: r => by
    simp only [manhattan, List.zipWith_cons_cons, List.sum_cons]
    have := manhattan_self r
    simp only [manhattan] at this
    simp [this]

theorem rowOf_of_forall {rows : List (ℕ × Row)} {r : Row}
    (hall : ∀ p ∈ rows, p.2 = r) {i : ℕ} (hi : i ∈ rows.map Prod.fst) :
    rowOf rows i = r := by
  obtain ⟨p, hp, hpi⟩ := List.mem_map.mp hi
  have hsome : (rows.find? (fun q => q.1 == i)).isSome := by
    rw [List.find?_isSome]
    exact ⟨p, hp, by simp [hpi]⟩
  obtain ⟨q, hq⟩ := Option.isSome_iff_exists.mp hsome
  have hqmem : q ∈ rows := List.mem_of_find?_eq_some hq
  unfold rowOf
  rw [hq]
  exact hall q hqmem

theorem kNN_subset {d : Row → Row → ℚ} {rows : List (ℕ × Row)} {i k : ℕ}
    {p : ℕ × Row} (hp : p ∈ kNN d rows i k) : p ∈ rows := by
  have h1 : p ∈ sortByKey (fun q => d (rowOf rows i) q.2) (candidates rows i) :=
    List.take_subset k _ hp
  have h2 : p ∈ candidates rows i := (sortByKey_perm _ _).mem_iff.mp h1
  exact List.mem_of_mem_filter h2

theorem pdistSq_all_zero {rows : List (ℕ × Row)} {r : Row}
    (hall : ∀ p ∈ rows, p.2 = r) {k i : ℕ} (hi : i ∈ rows.map Prod.fst) :
    pdistSq manhattan rows k i = 0 := by
  unfold pdistSq
  have hz : ((kNN manhattan rows i k).map
      (fun p => manhattan (rowOf rows i) p.2 ^ 2)).sum = 0 := by
    apply List.sum_eq_zero
    intro x hx
    obtain ⟨p, hp, hpe⟩ := List.mem_map.mp hx
    rw [← hpe, rowOf_of_forall hall hi, hall p (kNN_subset hp), manhattan_self]
    norm_num
  simp [hz]

theorem plofQ_all_zero {rows : List (ℕ × Row)} {r : Row}
    (hall : ∀ p ∈ rows, p.2 = r) {k i : ℕ} :
    plofQ manhattan rows k i = 0 := by
  unfold plofQ
  have hz : ((kNN manhattan rows i k).map
      (fun p => pdistSq manhattan rows k p.1)).sum = 0 := by
    apply List.sum_eq_zero
    intro x hx
    obtain ⟨p, hp, hpe⟩ := List.mem_map.mp hx
    rw [← hpe]
    exact pdistSq_all_zero hall (List.mem_map.mpr ⟨p, kNN_subset hp, rfl⟩)
  simp [hz]

theorem loopScore_all_zero {rows : List (ℕ × Row)} {r : Row}
    (hall : ∀ p ∈ rows, p.2 = r) (k i : ℕ) :
    loopScore manhattan rows k i = 0 := by
  have hn : nplofSq manhattan rows k = 0 := by
    unfold nplofSq
    rw [List.sum_eq_zero, zero_div]
    intro x hx
    obtain ⟨p, hp, hpe⟩ := List.mem_map.mp hx
    rw [← hpe, plofQ_all_zero hall]
    norm_num
  simp [loopScore, hn]

theorem threshold_all_zero (l : List ℚ) (numBins : ℕ) (hne : l ≠ [])
    (hz : ∀ x ∈ l, x = 0) :
    detectOutlierScoreThreshold l numBins = 1 / numBins := by
  match l, hne with
  | a :: t, _ =>
    have ha : a = 0 := hz a (List.mem_cons_self a t)
    have hall : t.all (fun x => decide (x = a)) = true := by
      rw [List.all_eq_true]
      intro x hx
      simp [hz x (List.mem_cons_of_mem a hx), ha]
    subst ha
    simp [detectOutlierScoreThreshold, hall, one_div]

/-- C7: on a matrix whose experiments are all identical, the pipeline runs
without error and with no division by zero — every experiment's score is `0`
(the degenerate-neighborhood fallback), the derived threshold is the common
score plus one bin width so that zero experiments are flagged,
`detect_outliers` returns all rows as inliers with an empty outlier record
list, and the mining stage maps the empty outlier set to an empty result. -/
theorem pipeline_identical_rows (M : MetricMatrix) (r : Row) (k numBins : ℕ)
    (minSup : ℚ) (minLen : ℕ)
    (hall : ∀ p ∈ M.rows, p.2 = r) (hk : k < M.rows.length)
    (hb : 0 < numBins) (hlen : 1 ≤ minLen) :
    (∀ i, loopScore manhattan M.rows k i = 0) ∧
    detectOutlierScoreThreshold
      (M.rows.map (fun p => loopScore manhattan M.rows k p.1)) numBins = 1 / numBins ∧
    detectOutliers manhattan M k none numBins = .ok (M.rows, []) ∧
    analyzeOutliers [] minSup minLen = [] := by
  have hscore : ∀ i, loopScore manhattan M.rows k i = 0 := loopScore_all_zero hall k
  have hne : M.rows ≠ [] := by
    intro h
    rw [h] at hk
    exact absurd hk (by simp)
  have hmapne : M.rows.map (fun p => loopScore manhattan M.rows k p.1) ≠ [] := by
    simpa using hne
  have hmapz : ∀ x ∈ M.rows.map (fun p => loopScore manhattan M.rows k p.1), x = 0 := by
    intro x hx
    obtain ⟨p, -, hpe⟩ := List.mem_map.mp hx
    rw [← hpe, hscore]
  have ht := threshold_all_zero _ numBins hmapne hmapz
  have htpos : (0 : ℚ) ≤ 1 / numBins := by positivity
  have hsplit : splitOutliers M.rows (loopScore manhattan M.rows k) (1 / numBins) =
      (M.rows, []) := by
    unfold splitOutliers
    refine Prod.ext ?_ ?_
    · simp only
      rw [List.filter_eq_self]
      intro p hp
      simp [hscore, htpos]
    · simp only
      rw [List.filter_eq_nil_iff]
      intro p hp
      simp [hscore, htpos, not_lt.mpr htpos]
  have hmine : analyzeOutliers [] minSup minLen = [] := by
    have h0 : (decide (minLen ≤ ([] : List String).length)) = false := by
      simp only [List.length_nil, decide_eq_false_iff_not]
      omega
    simp only [analyzeOutliers, fimModel, itemUniverse, List.flatten_nil, List.dedup_nil,
      List.sublists_nil, List.filter_cons, List.filter_nil, h0, Bool.false_and, decide_eq_true_eq]
    rw [if_neg]
    · simp [sortByKey]
    · rintro ⟨h, -⟩
      simp only [List.length_nil] at h
      omega
  refine ⟨hscore, ht, ?_, hmine⟩
  have hko : ¬ M.rows.length ≤ k := not_le.mpr hk
  simp only [detectOutliers, detectOutliersLoopE, if_neg hko, ht, hsplit]
  simp

theorem pipeline_identical_rows_witness :
    detectOutliers manhattan
      ⟨["a"], [((0 : ℕ), ([1] : Row)), (1, [1]), (2, [1])]⟩ 1 none 20 =
      .ok ([((0 : ℕ), ([1] : Row)), (1, [1]), (2, [1])], []) :=
  (pipeline_identical_rows ⟨["a"], [((0 : ℕ), ([1] : Row)), (1, [1]), (2, [1])]⟩
    ([1] : Row) 1 20 5 1 (by decide) (by decide) (by decide) (by decide)).2.2.1

theorem manhattan_nonneg : ∀ x y : Row, 0 ≤ manhattan x y
  | [], _ => by simp [manhattan]
  | _ :: _, [] => by simp [manhattan]
  | a :: x, b :: y => by
    simp only [manhattan, List.zipWith_cons_cons, List.sum_cons]
    have := manhattan_nonneg x y
    simp only [manhattan] at this
    exact add_nonneg (abs_nonneg _) this

theorem subspaceDev_nonneg (names S : List String) (rows : List (ℕ × Row))
    (o : ℕ × Row) (k : ℕ) : 0 ≤ subspaceDev names S rows o k := by
  unfold subspaceDev
  apply div_nonneg
  · apply List.sum_nonneg
    intro x hx
    obtain ⟨p, hp, hpe⟩ := List.mem_map.mp hx
    rw [← hpe]
    exact manhattan_nonneg _ _
  · positivity

theorem projRow_nil (names : List String) (r : Row) : projRow names [] r = [] := by
  simp [projRow]

theorem subspaceDev_nil (names : List String) (rows : List (ℕ × Row))
    (o : ℕ × Row) (k : ℕ) : subspaceDev names [] rows o k = 0 := by
  unfold subspaceDev
  have hz : ∀ p : ℕ × Row, manhattan (projRow names [] o.2) (projRow names [] p.2) = 0 := by
    intro p
    rw [projRow_nil, projRow_nil]
    exact manhattan_self []
  simp [hz]

theorem sum_map_const {α : Type} (l : List α) (c : ℚ) :
    (l.map (fun _ => c)).sum = l.length * c := by
  induction l with
  | nil => simp
  | cons a t ih =>
    simp only [List.map_cons, List.sum_cons, List.length_cons, ih]
    push_cast
    ring

theorem sum_map_div_snd {α : Type} (l : List (α × ℚ)) (c : ℚ) :
    (l.map (fun p => p.2 / c)).sum = (l.map Prod.snd).sum / c := by
  induction l with
  | nil => simp
  | cons a t ih => simp [ih, add_div]

theorem greedySubspace_spec (names : List String) (rows : List (ℕ × Row))
    (o : ℕ × Row) (k : ℕ) :
    ∀ (fuel : ℕ) (S : List String), S ≠ [] → S.length ≤ fuel + 1 →
      greedySubspace names rows o k fuel S ≠ [] ∧
      ∀ m ∈ greedySubspace names rows o k fuel S,
        subspaceDev names ((greedySubspace names rows o k fuel S).erase m) rows o k ≤
          subspaceDev names (greedySubspace names rows o k fuel S) rows o k := by
  intro fuel
  induction fuel with
  | zero =>
    intro S hne hlen
    match S, hne, hlen with
    | [m], _, _ =>
      simp only [greedySubspace]
      refine ⟨by simp, ?_⟩
      intro m' hm'
      rcases List.mem_singleton.mp hm' with rfl
      rw [List.erase_cons_head, subspaceDev_nil]
      exact subspaceDev_nonneg _ _ _ _ _
    | a :: b :: t, _, hlen =>
      simp only [List.length_cons] at hlen
      omega
  | succ fuel ih =>
    intro S hne hlen
    by_cases h1 : S.length ≤ 1
    · match S, hne, h1 with
      | [m], _, _ =>
        simp only [greedySubspace, List.length_singleton, le_refl, if_true]
        refine ⟨by simp, ?_⟩
        intro m' hm'
        rcases List.mem_singleton.mp hm' with rfl
        rw [List.erase_cons_head, subspaceDev_nil]
        exact subspaceDev_nonneg _ _ _ _ _
      | a :: b :: t, _, h1 =>
        simp only [List.length_cons] at h1
        omega
    · simp only [greedySubspace, if_neg h1]
      cases hfind : firstImprovingRemoval names rows o k S with
      | none =>
        refine ⟨hne, ?_⟩
        intro m hm
        have hnone := List.find?_eq_none.mp hfind m hm
        simp only [decide_eq_true_eq] at hnone
        exact not_lt.mp hnone
      | some m =>
        have hmem : m ∈ S := List.mem_of_find?_eq_some hfind
        have hlen' : (S.erase m).length ≤ fuel + 1 := by
          rw [List.length_erase_of_mem hmem]
          omega
        have hne' : S.erase m ≠ [] := by
          have hpos : 0 < (S.erase m).length := by
            rw [List.length_erase_of_mem hmem]
            omega
          exact List.ne_nil_of_length_pos hpos
        exact ih (S.erase m) hne' hlen'

/-- C9: the explanation returned for a flagged outlier has a non-empty
subspace, a feature-importance vector with exactly one entry per metric of
the subspace, all entries non-negative, and the entries summing to the fixed
normalization constant `1`. -/
theorem getOutlierSubspace_invariants (names : List String) (rows : List (ℕ × Row))
    (o : ℕ × Row) (k : ℕ) (hne : names ≠ []) :
    (getOutlierSubspace names rows o k).2 ≠ [] ∧
    ((getOutlierSubspace names rows o k).1).map Prod.fst = (getOutlierSubspace names rows o k).2 ∧
    (∀ w ∈ (getOutlierSubspace names rows o k).1, 0 ≤ w.2) ∧
    (((getOutlierSubspace names rows o k).1).map Prod.snd).sum = 1 := by
  obtain ⟨hSne, hSopt⟩ := greedySubspace_spec names rows o k names.length names hne (by omega)
  have hSne' : explSubspace names rows o k ≠ [] := hSne
  have hmarg_nonneg : ∀ w ∈ explMarginals names rows o k, 0 ≤ w.2 := by
    intro w hw
    obtain ⟨m, hm, hme⟩ := List.mem_map.mp hw
    rw [← hme]
    exact sub_nonneg.mpr (hSopt m hm)
  have htot_nonneg : 0 ≤ ((explMarginals names rows o k).map Prod.snd).sum := by
    apply List.sum_nonneg
    intro x hx
    obtain ⟨w, hw, hwe⟩ := List.mem_map.mp hx
    rw [← hwe]
    exact hmarg_nonneg w hw
  refine ⟨hSne', ?_, ?_, ?_⟩
  · unfold getOutlierSubspace
    dsimp only
    split
    · have hfun : (Prod.fst ∘ fun m : String =>
          (m, 1 / ((explSubspace names rows o k).length : ℚ))) = id := rfl
      rw [List.map_map, hfun, List.map_id]
    · have hfun : (Prod.fst ∘ fun p : String × ℚ =>
          (p.1, p.2 / ((explMarginals names rows o k).map Prod.snd).sum)) = Prod.fst := rfl
      rw [List.map_map, hfun]
      unfold explMarginals
      rw [List.map_map]
      have hfun2 : (Prod.fst ∘ fun m : String =>
          (m, subspaceDev names (explSubspace names rows o k) rows o k -
            subspaceDev names ((explSubspace names rows o k).erase m) rows o k)) = id := rfl
      rw [hfun2, List.map_id]
  · unfold getOutlierSubspace
    dsimp only
    split
    · intro w hw
      obtain ⟨m, hm, hme⟩ := List.mem_map.mp hw
      rw [← hme]
      positivity
    · rename_i htot
      intro w hw
      obtain ⟨p, hp, hpe⟩ := List.mem_map.mp hw
      rw [← hpe]
      exact div_nonneg (hmarg_nonneg p hp) htot_nonneg
  · unfold getOutlierSubspace
    dsimp only
    split
    · rename_i htot
      rw [List.map_map]
      have : (Prod.snd ∘ fun m : String =>
          (m, 1 / ((explSubspace names rows o k).length : ℚ))) =
          fun _ => 1 / ((explSubspace names rows o k).length : ℚ) := rfl
      rw [this, sum_map_const]
      have hlenne : ((explSubspace names rows o k).length : ℚ) ≠ 0 := by
        have := List.length_pos.mpr hSne'
        positivity
      field_simp
    · rename_i htot
      rw [List.map_map]
      have : (Prod.snd ∘ fun p : String × ℚ =>
          (p.1, p.2 / ((explMarginals names rows o k).map Prod.snd).sum)) =
          fun p : String × ℚ => p.2 / ((explMarginals names rows o k).map Prod.snd).sum := rfl
      rw [this, sum_map_div_snd]
      exact div_self htot

theorem getOutlierSubspace_invariants_witness :
    (getOutlierSubspace ["a", "b"] [((0 : ℕ), ([0, 0] : Row)), (1, [1, 0]), (2, [5, 5])]
      (2, [5, 5]) 1).2 ≠ [] ∧
    (((getOutlierSubspace ["a", "b"] [((0 : ℕ), ([0, 0] : Row)), (1, [1, 0]), (2, [5, 5])]
      (2, [5, 5]) 1).1).map Prod.snd).sum = 1 := by
  have h := getOutlierSubspace_invariants ["a", "b"]
    [((0 : ℕ), ([0, 0] : Row)), (1, [1, 0]), (2, [5, 5])] (2, [5, 5]) 1 (by decide)
  exact ⟨h.1, h.2.2.2⟩

/-- The threshold actually used by `detect_outliers`: the caller's value when
supplied, otherwise the one derived from the score histogram. -/
def resolvedThreshold (d : Row → Row → ℚ) (M : MetricMatrix) (k : ℕ)
    (thrOpt : Option ℚ) (numBins : ℕ) : ℚ :=
  match thrOpt with
  | some t0 => t0
  | none => detectOutlierScoreThreshold
      (M.rows.map (fun p => loopScore d M.rows k p.1)) numBins

theorem rowOf_eq_of_mem {rows : List (ℕ × Row)} (hnd : (rows.map Prod.fst).Nodup)
    {p : ℕ × Row} (hp : p ∈ rows) : rowOf rows p.1 = p.2 := by
  have hsome : (rows.find? (fun q => q.1 == p.1)).isSome := by
    rw [List.find?_isSome]
    exact ⟨p, hp, by simp⟩
  obtain ⟨q, hq⟩ := Option.isSome_iff_exists.mp hsome
  have hqmem : q ∈ rows := List.mem_of_find?_eq_some hq
  have hq1 : q.1 = p.1 := by simpa using List.find?_some hq
  have hqp : q = p := List.inj_on_of_nodup_map hnd hqmem hp hq1
  unfold rowOf
  rw [hq, hqp]
  rfl

/-- C5: whenever `detect_outliers` succeeds, every returned outlier record's
explanation is exactly `get_outlier_subspace` evaluated on the full matrix
(the one still containing every outlier row, saved as
`data_including_outliers` before the split), the records are in bijection
with the flagged outliers (one explanation per flagged outlier, each id
occurring once), and their ids are exactly the ids flagged by the split. -/
theorem detectOutliers_explains_full_matrix (d : Row → Row → ℚ) (M : MetricMatrix)
    (k numBins : ℕ) (thrOpt : Option ℚ) (res : List (ℕ × Row) × List OutlierRecord)
    (hok : detectOutliers d M k thrOpt numBins = .ok res)
    (hnd : (M.rows.map Prod.fst).Nodup) :
    (∀ rec ∈ res.2,
      rec.featureImportance =
        (getOutlierSubspace M.names M.rows (rec.id, rowOf M.rows rec.id) k).1 ∧
      rec.subspace =
        (getOutlierSubspace M.names M.rows (rec.id, rowOf M.rows rec.id) k).2) ∧
    (res.2.map (fun rec => rec.id)).Nodup ∧
    res.2.map (fun rec => rec.id) =
      ((splitOutliers M.rows (loopScore d M.rows k)
        (resolvedThreshold d M k thrOpt numBins)).2).map Prod.fst := by
  by_cases hk : M.rows.length ≤ k
  · rw [detectOutliers] at hok
    simp only [detectOutliersLoopE, if_pos hk] at hok
    exact absurd hok (by simp)
  · rw [detectOutliers] at hok
    simp only [detectOutliersLoopE, if_neg hk] at hok
    rw [Except.ok.injEq] at hok
    obtain rfl := hok.symm
    dsimp only
    refine ⟨?_, ?_, ?_⟩
    · intro rec hrec
      obtain ⟨o, ho, rfl⟩ := List.mem_map.mp hrec
      have homem : o ∈ M.rows := List.mem_of_mem_filter ho
      dsimp only
      rw [rowOf_eq_of_mem hnd homem]
      refine ⟨?_, ?_⟩
      · rw [show ((o.1, o.2) : ℕ × Row) = o from rfl]
      · rw [show ((o.1, o.2) : ℕ × Row) = o from rfl]
    · rw [List.map_map]
      have hfun : ((fun rec : OutlierRecord => rec.id) ∘ fun o : ℕ × Row =>
          ({ id := o.1, score := loopScore d M.rows k o.1,
             featureImportance := (getOutlierSubspace M.names M.rows o k).1,
             subspace := (getOutlierSubspace M.names M.rows o k).2 } : OutlierRecord)) =
          Prod.fst := rfl
      rw [hfun]
      have hsub : (splitOutliers M.rows (loopScore d M.rows k)
          (resolvedThreshold d M k thrOpt numBins)).2.Sublist M.rows :=
        List.filter_sublist _
      exact (hsub.map Prod.fst).nodup hnd
    · rw [List.map_map]
      have hfun2 : ((fun rec : OutlierRecord => rec.id) ∘ fun o : ℕ × Row =>
          ({ id := o.1, score := loopScore d M.rows k o.1,
             featureImportance := (getOutlierSubspace M.names M.rows o k).1,
             subspace := (getOutlierSubspace M.names M.rows o k).2 } : OutlierRecord)) =
          Prod.fst := rfl
      rw [hfun2]
      rfl

theorem detectOutliers_explains_full_matrix_witness :
    ((( [⟨2, 1, [("a", 1)], ["a"]⟩] : List OutlierRecord)).map (fun rec => rec.id)).Nodup := by
  have h := detectOutliers_explains_full_matrix manhattan
    ⟨["a"], [(0, [0]), (1, [1]), (2, [10])]⟩ 1 20 (some (1/2))
    ([(0, [0]), (1, [1])], [⟨2, 1, [("a", 1)], ["a"]⟩])
    (by decide) (by decide)
  exact h.2.1

/-! ### Permutation invariance of the scorer -/

/-- No two distinct neighbor candidates of any experiment sit at the same
distance from it (rules out the k-nearest-neighbor ties that the spec breaks
by stable row order). -/
def NbrDistinct (d : Row → Row → ℚ) (rows : List (ℕ × Row)) : Prop :=
  ∀ i ∈ rows.map Prod.fst, (candidates rows i).Pairwise
    (fun p q => d (rowOf rows i) p.2 = d (rowOf rows i) q.2 → p = q)

instance (d : Row → Row → ℚ) (rows : List (ℕ × Row)) : Decidable (NbrDistinct d rows) :=
  inferInstanceAs (Decidable (∀ i ∈ rows.map Prod.fst, (candidates rows i).Pairwise
    (fun p q : ℕ × Row => d (rowOf rows i) p.2 = d (rowOf rows i) q.2 → p = q)))

theorem find?_key_perm {rows rows' : List (ℕ × Row)} (hp : List.Perm rows rows')
    (hnd : (rows.map Prod.fst).Nodup) (i : ℕ) :
    rows.find? (fun p => p.1 == i) = rows'.find? (fun p => p.1 == i) := by
  cases h : rows.find? (fun p => p.1 == i) with
  | none =>
    have hall := List.find?_eq_none.mp h
    symm
    rw [List.find?_eq_none]
    intro x hx
    exact hall x (hp.symm.subset hx)
  | some q =>
    have hqmem : q ∈ rows := List.mem_of_find?_eq_some h
    have hqpred : q.1 = i := by simpa using List.find?_some h
    cases h' : rows'.find? (fun p => p.1 == i) with
    | none =>
      have hall := List.find?_eq_none.mp h'
      have hcontra := hall q (hp.subset hqmem)
      simp [hqpred] at hcontra
    | some q' =>
      have hq'mem : q' ∈ rows := hp.symm.subset (List.mem_of_find?_eq_some h')
      have hq'pred : q'.1 = i := by simpa using List.find?_some h'
      have hqq : q = q' := by
        apply List.inj_on_of_nodup_map hnd hqmem hq'mem
        rw [hqpred, hq'pred]
      rw [hqq]

theorem rowOf_perm {rows rows' : List (ℕ × Row)} (hp : List.Perm rows rows')
    (hnd : (rows.map Prod.fst).Nodup) (i : ℕ) :
    rowOf rows' i = rowOf rows i := by
  unfold rowOf
  rw [← find?_key_perm hp hnd i]

theorem mem_keys_of_mem {rows : List (ℕ × Row)} {p : ℕ × Row} (hp : p ∈ rows) :
    p.1 ∈ rows.map Prod.fst :=
  List.mem_map.mpr ⟨p, hp, rfl⟩

theorem kNN_perm_eq {d : Row → Row → ℚ} {rows rows' : List (ℕ × Row)}
    (hp : List.Perm rows rows') (hnd : (rows.map Prod.fst).Nodup)
    (hdist : NbrDistinct d rows) (k : ℕ) {i : ℕ} (hi : i ∈ rows.map Prod.fst) :
    kNN d rows' i k = kNN d rows i k := by
  unfold kNN
  rw [rowOf_perm hp hnd i]
  congr 1
  apply sortByKey_eq_of_perm
  · exact (hp.filter _).symm
  · intro a ha b hb hkey
    by_cases hab : a = b
    · exact hab
    · have hpair := hdist i hi
      have hsym : Symmetric (fun p q : ℕ × Row =>
          d (rowOf rows i) p.2 = d (rowOf rows i) q.2 → p = q) := by
        intro p q h he
        exact (h he.symm).symm
      have ha' : a ∈ candidates rows i := (hp.filter _).mem_iff.mpr ha
      have hb' : b ∈ candidates rows i := (hp.filter _).mem_iff.mpr hb
      exact List.Pairwise.forall hsym hpair ha' hb' hab hkey

theorem pdistSq_perm {d : Row → Row → ℚ} {rows rows' : List (ℕ × Row)}
    (hp : List.Perm rows rows') (hnd : (rows.map Prod.fst).Nodup)
    (hdist : NbrDistinct d rows) (k : ℕ) {i : ℕ} (hi : i ∈ rows.map Prod.fst) :
    pdistSq d rows' k i = pdistSq d rows k i := by
  simp only [pdistSq, rowOf_perm hp hnd i, kNN_perm_eq hp hnd hdist k hi]

theorem plofQ_perm {d : Row → Row → ℚ} {rows rows' : List (ℕ × Row)}
    (hp : List.Perm rows rows') (hnd : (rows.map Prod.fst).Nodup)
    (hdist : NbrDistinct d rows) (k : ℕ) {i : ℕ} (hi : i ∈ rows.map Prod.fst) :
    plofQ d rows' k i = plofQ d rows k i := by
  have hmap : (kNN d rows i k).map (fun p => pdistSq d rows' k p.1) =
      (kNN d rows i k).map (fun p => pdistSq d rows k p.1) := by
    apply List.map_congr_left
    intro p hpmem
    exact pdistSq_perm hp hnd hdist k (mem_keys_of_mem (kNN_subset hpmem))
  simp only [plofQ, kNN_perm_eq hp hnd hdist k hi, pdistSq_perm hp hnd hdist k hi, hmap]

theorem nplofSq_perm {d : Row → Row → ℚ} {rows rows' : List (ℕ × Row)}
    (hp : List.Perm rows rows') (hnd : (rows.map Prod.fst).Nodup)
    (hdist : NbrDistinct d rows) (k : ℕ) :
    nplofSq d rows' k = nplofSq d rows k := by
  unfold nplofSq
  have h1 : rows'.map (fun p => plofQ d rows' k p.1 ^ 2) =
      rows'.map (fun p => plofQ d rows k p.1 ^ 2) := by
    apply List.map_congr_left
    intro p hpmem
    rw [plofQ_perm hp hnd hdist k (mem_keys_of_mem (hp.symm.subset hpmem))]
  rw [h1, ← (hp.map (fun p => plofQ d rows k p.1 ^ 2)).sum_eq, ← hp.length_eq]

theorem loopScore_mem_unit (d : Row → Row → ℚ) (rows : List (ℕ × Row)) (k i : ℕ) :
    0 ≤ loopScore d rows k i ∧ loopScore d rows k i ≤ 1 := by
  unfold loopScore
  split
  · exact ⟨le_refl 0, zero_le_one⟩
  · unfold clamp01
    exact ⟨le_max_left 0 _, max_le zero_le_one (min_le_left 1 _)⟩

/-- C1 (amended): every LOOP outlier score lies in `[0,1]`, for every matrix
and every experiment; and for a matrix with unique experiment ids whose
neighbor candidates sit at pairwise distinct distances (no
k-nearest-neighbor ties), permuting the row order leaves every experiment's
score unchanged.  (With ties, the spec's own stable-row-order tie-break makes
the scores order-dependent — see the counterexample.) -/
theorem loopScore_bounds_perm_invariant (d : Row → Row → ℚ) (k : ℕ)
    (rows rows' : List (ℕ × Row)) :
    (∀ i, 0 ≤ loopScore d rows k i ∧ loopScore d rows k i ≤ 1) ∧
    (List.Perm rows rows' → (rows.map Prod.fst).Nodup → NbrDistinct d rows →
      ∀ i ∈ rows.map Prod.fst, loopScore d rows' k i = loopScore d rows k i) := by
  refine ⟨fun i => loopScore_mem_unit d rows k i, ?_⟩
  intro hp hnd hdist i hi
  unfold loopScore
  rw [nplofSq_perm hp hnd hdist k, plofQ_perm hp hnd hdist k hi]

/-- C1 counterexample: on a matrix with a distance tie (experiments `1` and
`2` are equidistant from experiment `0`), swapping the rows of `1` and `2`
changes experiment `0`'s score — the spec's stable-row-order tie-break picks
a different neighbor whose own set distance differs. -/
theorem loopScore_not_perm_invariant_cex :
    List.Perm
      ([(0, [0]), (1, [1]), (2, [-1]), (3, [3/2]), (4, [-4])] : List (ℕ × Row))
      ([(0, [0]), (2, [-1]), (1, [1]), (3, [3/2]), (4, [-4])] : List (ℕ × Row)) ∧
    loopScore manhattan
      ([(0, [0]), (1, [1]), (2, [-1]), (3, [3/2]), (4, [-4])] : List (ℕ × Row)) 1 0 ≠
    loopScore manhattan
      ([(0, [0]), (2, [-1]), (1, [1]), (3, [3/2]), (4, [-4])] : List (ℕ × Row)) 1 0 := by
  constructor
  · exact (List.Perm.swap ((2 : ℕ), ([-1] : Row)) (1, [1]) _).cons (0, [0])
  · decide

theorem loopScore_bounds_perm_invariant_witness :
    (0 ≤ loopScore manhattan
        ([(0, [0]), (1, [1]), (2, [-1]), (3, [3/2]), (4, [-4])] : List (ℕ × Row)) 1 0 ∧
      loopScore manhattan
        ([(0, [0]), (1, [1]), (2, [-1]), (3, [3/2]), (4, [-4])] : List (ℕ × Row)) 1 0 ≤ 1) ∧
    loopScore manhattan ([(1, [1]), (0, [0]), (2, [3]), (3, [7])] : List (ℕ × Row)) 1 0 =
      loopScore manhattan ([(0, [0]), (1, [1]), (2, [3]), (3, [7])] : List (ℕ × Row)) 1 0 :=
  ⟨(loopScore_bounds_perm_invariant manhattan 1
      ([(0, [0]), (1, [1]), (2, [-1]), (3, [3/2]), (4, [-4])] : List (ℕ × Row))
      ([(0, [0]), (1, [1]), (2, [-1]), (3, [3/2]), (4, [-4])] : List (ℕ × Row))).1 0,
   (loopScore_bounds_perm_invariant manhattan 1
      ([(0, [0]), (1, [1]), (2, [3]), (3, [7])] : List (ℕ × Row))
      ([(1, [1]), (0, [0]), (2, [3]), (3, [7])] : List (ℕ × Row))).2
     (List.Perm.swap ((1 : ℕ), ([1] : Row)) (0, [0]) _)
     (by decide) (by decide) 0 (by decide)⟩

end QC
